import Mathlib

/-!
Verification of the environment-sourcing and command-running utilities of
the `langforge` repository (`system/utils.go`), via a shallow embedding.

Strings are modelled as lists of characters.  The process-wide environment
is modelled as a partial map from variable names to values.  Subprocess
invocation is external to the program, so each sourcing function takes the
invocation's outcome as a parameter: `none` models a spawn failure or
non-zero exit (in Go, `cmd.Output()` / `cmd.Run()` returning a non-nil
error), and `some output` models success with the captured standard
output.  Likewise `ExecuteCommands` is parametrised by an abstract runner
`run : Command -> Option E` standing for `exec.Cmd.Run`, and returns the
list of commands it actually spawned together with the Go function's error
result, so that execution order and short-circuiting are observable.
-/

namespace LangForge

/-- A Go string, modelled as a list of characters. -/
abbrev Str := List Char

/-- A Go `map[string]string`, modelled as an association list whose update
operation (`upsert`) overwrites an existing binding in place.  Keys are
unique (proved below), matching Go map semantics. -/
abbrev Snapshot := List (Str × Str)

/-- The process-wide environment: a partial map from names to values. -/
abbrev Env := Str → Option Str

/-- Go `strings.Split(s, sep)` for a one-character separator: all segments
between occurrences of `sep`, empties included; the empty string yields
one empty segment. -/
def splitOnChar (sep : Char) : Str → List Str
  | [] => [[]]
  | c :: cs =>
    if c = sep then
      [] :: splitOnChar sep cs
    else
      match splitOnChar sep cs with
      | [] => [[c]]
      | s :: ss => (c :: s) :: ss

/-- Go `strings.SplitN(line, "=", 2)`, restricted to the information the
parse loops use: `some (k, v)` when the line contains a `=` (so
`len(parts) == 2`, with `parts[0] = k` before the first `=` and
`parts[1] = v` after it), `none` when it does not (`len(parts) == 1`,
line skipped). -/
def splitFirstEq : Str → Option (Str × Str)
  | [] => none
  | c :: cs =>
    if c = '=' then
      some ([], cs)
    else
      match splitFirstEq cs with
      | some kv => some (c :: kv.1, kv.2)
      | none => none

/-- The key part of a dump line: the text before the first `=`, when the
line has one. -/
def lineKey (l : Str) : Option Str :=
  (splitFirstEq l).map Prod.fst

/-- Go map assignment `m[k] = v`: overwrite the binding of `k` if present,
else add it. -/
def upsert (k v : Str) : Snapshot → Snapshot
  | [] => [(k, v)]
  | (k0, v0) :: rest =>
    if k0 = k then (k, v) :: rest else (k0, v0) :: upsert k v rest

/-- Go map read `m[k]`. -/
def lookup : Snapshot → Str → Option Str
  | [], _ => none
  | (k0, v0) :: rest, k => if k = k0 then some v0 else lookup rest k

/-- One iteration of the parse loop shared by the three sourcing
functions: `parts := strings.SplitN(line, "=", 2); if len(parts) == 2 {
env[parts[0]] = parts[1] }`. -/
def parseStep (m : Snapshot) (line : Str) : Snapshot :=
  match splitFirstEq line with
  | some kv => upsert kv.1 kv.2 m
  | none => m

/-- The whole parse loop: fold `parseStep` over the dump's lines starting
from the empty map (`env := make(map[string]string)`). -/
def parseLines (lines : List Str) : Snapshot :=
  lines.foldl parseStep []

/-- Go `os.Setenv(k, v)` on the modelled environment. -/
def setenv (e : Env) (k v : Str) : Env :=
  fun x => if x = k then some v else e x

/-- The apply loop `for key, value := range env { os.Setenv(key, value) }`.
Go iterates the map in an unspecified order; since keys are unique the
resulting environment does not depend on the order, and the model applies
the snapshot's own order. -/
def applySnapshot (m : Snapshot) (e : Env) : Env :=
  m.foldl (fun acc kv => setenv acc kv.1 kv.2) e

/-- `dropCR` from Go's `bufio.ScanLines`: drop one trailing `\r`. -/
def dropCR (l : Str) : Str :=
  match l.getLast? with
  | some c => if c = '\r' then l.dropLast else l
  | none => l

/-- `bufio.MaxScanTokenSize`, the default maximum line length of a
`bufio.Scanner` (64 * 1024 bytes). -/
def maxScanTokenSize : Nat := 65536

/-- `bufio.Scanner` with `ScanLines` over the fully captured output, given
as the `\n`-separated segments of the stream (the last list element is the
text after the final `\n`).  Tokens are the segments with one trailing
`\r` removed; a segment of `maxTok` or more bytes has no newline within
the scanner's full buffer, so scanning stops with `ErrTooLong` (flag
`true`), dropping that segment and everything after it.  A final empty
segment (stream ended with `\n`) produces no token. -/
def scanSegs (maxTok : Nat) : List Str → List Str × Bool
  | [] => ([], false)
  | [last] =>
    if last = [] then ([], false)
    else if maxTok ≤ last.length then ([], true)
    else ([dropCR last], false)
  | seg :: rest1 :: rest =>
    if maxTok ≤ seg.length then ([], true)
    else
      ((dropCR seg) :: (scanSegs maxTok (rest1 :: rest)).1,
       (scanSegs maxTok (rest1 :: rest)).2)

/-- The lines a default `bufio.Scanner` yields over the captured output,
with the flag recording whether scanning stopped on `ErrTooLong` (an
error the Go code never inspects). -/
def scanLines (s : Str) : List Str × Bool :=
  scanSegs maxScanTokenSize (splitOnChar '\n' s)

/-- Error result of the sourcing functions.  The Go code wraps the
subprocess error in a message string; only its presence matters here. -/
inductive SourceError
  | scriptExecutionError
deriving DecidableEq

/-- The snapshot `ShellSourceUnix` builds from the captured output:
`strings.Split(string(output), "\n")` then the shared parse loop. -/
def unixSnapshot (output : Str) : Snapshot :=
  parseLines (splitOnChar '\n' output)

/-- The snapshot `ShellSourceBatch` and `ShellSourcePowerShell` build from
the captured output: the lines a `bufio.Scanner` yields, then the shared
parse loop.  A scan error leaves the error unreported and the snapshot
holding only the lines scanned before it. -/
def scannerSnapshot (output : Str) : Snapshot :=
  parseLines (scanLines output).1

/-- `ShellSourceUnix` from `system/utils.go`: on invocation failure
(`cmd.Output()` returned an error) return the wrapped error without
touching the environment; on success parse the dump and apply it. -/
def ShellSourceUnix (outcome : Option Str) (env0 : Env) :
    Option SourceError × Env :=
  match outcome with
  | none => (some SourceError.scriptExecutionError, env0)
  | some output => (none, applySnapshot (unixSnapshot output) env0)

/-- `ShellSourceBatch` from `system/utils.go`: on invocation failure
(`cmd.Run()` returned an error) return the wrapped error without touching
the environment; on success scan the captured buffer, parse, and apply.
`scanner.Err()` is never consulted, so the error result is `none` on
every successful invocation. -/
def ShellSourceBatch (outcome : Option Str) (env0 : Env) :
    Option SourceError × Env :=
  match outcome with
  | none => (some SourceError.scriptExecutionError, env0)
  | some output => (none, applySnapshot (scannerSnapshot output) env0)

/-- `ShellSourcePowerShell` from `system/utils.go`: identical structure to
`ShellSourceBatch` (only the subprocess command line differs, which is
external to the model). -/
def ShellSourcePowerShell (outcome : Option Str) (env0 : Env) :
    Option SourceError × Env :=
  match outcome with
  | none => (some SourceError.scriptExecutionError, env0)
  | some output => (none, applySnapshot (scannerSnapshot output) env0)

/-- The `exec.Cmd` that `ExecuteCommands` builds for one command string:
`parts := strings.Split(command, " "); cmdName := parts[0]; args :=
parts[1:]` (empty when there is a single part), with the working
directory. -/
structure Command where
  name : Str
  args : List Str
  dir : Str
deriving DecidableEq

/-- Command construction in `ExecuteCommands`.  `parts` is never empty
(proved below), so `parts[0]` cannot panic; `headD` mirrors it. -/
def parseCommand (command dir : Str) : Command :=
  ⟨(splitOnChar ' ' command).headD [], (splitOnChar ' ' command).tail, dir⟩

/-- The loop of `ExecuteCommands`, instrumented with the list of commands
actually run: build each command, run it, stop at the first error. -/
def execLoop {E : Type} (run : Command → Option E) (dir : Str) :
    List Str → List Command × Option E
  | [] => ([], none)
  | c :: rest =>
    match run (parseCommand c dir) with
    | some e => ([parseCommand c dir], some e)
    | none =>
      ((parseCommand c dir) :: (execLoop run dir rest).1,
       (execLoop run dir rest).2)

/-- `ExecuteCommands` from `system/utils.go`: the early return on an empty
list, then the sequential loop.  `run` abstracts `exec.Cmd.Run`; the
returned list is the sequence of commands spawned, the `Option E` the Go
error result. -/
def ExecuteCommands {E : Type} (run : Command → Option E)
    (commands : List Str) (dir : Str) : List Command × Option E :=
  if commands.isEmpty then ([], none) else execLoop run dir commands

/-- Joining tokens with a single separator character; the left inverse of
`splitOnChar` used to state what the command-splitting step does. -/
def joinWith (sep : Char) : List Str → Str
  | [] => []
  | [t] => t
  | t :: t2 :: ts => t ++ sep :: joinWith sep (t2 :: ts)

/-! Basic facts about the splitting functions. -/

/-- Splitting never yields an empty list of parts, so `parts[0]` in
`ExecuteCommands` cannot panic. -/
theorem splitOnChar_ne_nil (sep : Char) (l : Str) : splitOnChar sep l ≠ [] := by
  cases l with
  | nil => simp [splitOnChar]
  | cons c cs =>
    simp only [splitOnChar]
    split
    · simp
    · split <;> simp

/-- A string free of the separator splits into itself alone. -/
theorem splitOnChar_eq_single (sep : Char) (l : Str) (h : sep ∉ l) :
    splitOnChar sep l = [l] := by
  induction l with
  | nil => rfl
  | cons c cs ih =>
    rw [List.mem_cons] at h
    push_neg at h
    have hc : ¬ c = sep := fun e => h.1 e.symm
    simp [splitOnChar, hc, ih h.2]

/-- Splitting peels off a separator-free head token. -/
theorem splitOnChar_token_cons (sep : Char) (t rest : Str) (h : sep ∉ t) :
    splitOnChar sep (t ++ sep :: rest) = t :: splitOnChar sep rest := by
  induction t with
  | nil => simp [splitOnChar]
  | cons c cs ih =>
    rw [List.mem_cons] at h
    push_neg at h
    have hc : ¬ c = sep := fun e => h.1 e.symm
    have ih2 := ih h.2
    simp [splitOnChar, hc, ih2]

/-- `splitOnChar` undoes `joinWith` on any nonempty token list whose
tokens are separator-free: this is exactly the splitting the Go code
performs, applied to the joined command string. -/
theorem splitOnChar_joinWith (sep : Char) (ts : List Str) (hne : ts ≠ [])
    (h : ∀ t ∈ ts, sep ∉ t) : splitOnChar sep (joinWith sep ts) = ts := by
  induction ts with
  | nil => exact absurd rfl hne
  | cons t ts ih =>
    cases ts with
    | nil => exact splitOnChar_eq_single sep t (h t (List.mem_cons_self t []))
    | cons t2 ts2 =>
      have h2 : ∀ x ∈ t2 :: ts2, sep ∉ x :=
        fun x hx => h x (List.mem_cons_of_mem t hx)
      rw [joinWith, splitOnChar_token_cons sep t _ (h t (List.mem_cons_self t _)),
        ih (by simp) h2]

/-- Splitting a run of separators yields only empty tokens. -/
theorem splitOnChar_replicate_sep (sep : Char) (n : Nat) :
    splitOnChar sep (List.replicate n sep) = List.replicate (n + 1) [] := by
  induction n with
  | zero => rfl
  | succ n ih => simp [List.replicate_succ, splitOnChar, ih]

/-- A line with no `=` is reported as having a single part. -/
theorem splitFirstEq_eq_none_of_not_mem (l : Str) (h : '=' ∉ l) :
    splitFirstEq l = none := by
  induction l with
  | nil => rfl
  | cons c cs ih =>
    rw [List.mem_cons] at h
    push_neg at h
    have hc : ¬ c = '=' := fun e => h.1 e.symm
    simp [splitFirstEq, hc, ih h.2]

/-- The key part of a parsed line stops before the first `=`, so it never
contains `=`. -/
theorem splitFirstEq_key_no_eq (l : Str) (kv : Str × Str)
    (h : splitFirstEq l = some kv) : '=' ∉ kv.1 := by
  induction l generalizing kv with
  | nil => simp [splitFirstEq] at h
  | cons c cs ih =>
    by_cases hc : c = '='
    · simp [splitFirstEq, hc] at h
      rw [← h]
      simp
    · simp only [splitFirstEq, hc, if_false] at h
      cases hcs : splitFirstEq cs with
      | none => rw [hcs] at h; simp at h
      | some kv0 =>
        rw [hcs] at h
        simp only [Option.some_inj] at h
        rw [← h]
        simp only [List.mem_cons, not_or]
        exact ⟨fun e => hc e.symm, ih kv0 hcs⟩

/-! Facts about the Go-map model. -/

/-- Reading after an assignment: the assigned key reads the new value,
every other key is untouched. -/
theorem lookup_upsert (k v x : Str) (m : Snapshot) :
    lookup (upsert k v m) x = if x = k then some v else lookup m x := by
  induction m with
  | nil => simp [upsert, lookup]
  | cons kv rest ih =>
    obtain ⟨k0, v0⟩ := kv
    by_cases h0 : k0 = k
    · subst h0
      by_cases hx : x = k0 <;> simp [upsert, lookup, hx]
    · by_cases hx : x = k0
      · subst hx
        simp [upsert, lookup, h0]
      · simp [upsert, lookup, h0, hx, ih]

/-- The keys after an assignment are the old keys plus the assigned one. -/
theorem mem_keys_upsert (k v x : Str) (m : Snapshot) :
    x ∈ (upsert k v m).map Prod.fst ↔ x = k ∨ x ∈ m.map Prod.fst := by
  induction m with
  | nil => simp [upsert]
  | cons kv rest ih =>
    obtain ⟨k0, v0⟩ := kv
    by_cases h0 : k0 = k
    · subst h0
      simp [upsert]
    · simp [upsert, h0, ih]
      tauto

/-- Assignment preserves uniqueness of keys. -/
theorem keys_nodup_upsert (k v : Str) (m : Snapshot)
    (h : (m.map Prod.fst).Nodup) : ((upsert k v m).map Prod.fst).Nodup := by
  induction m with
  | nil => simp [upsert]
  | cons kv rest ih =>
    obtain ⟨k0, v0⟩ := kv
    rw [List.map_cons, List.nodup_cons] at h
    by_cases h0 : k0 = k
    · subst h0
      have hu : upsert k0 v ((k0, v0) :: rest) = (k0, v) :: rest := by
        simp [upsert]
      rw [hu, List.map_cons, List.nodup_cons]
      exact h
    · have hu : upsert k v ((k0, v0) :: rest) = (k0, v0) :: upsert k v rest := by
        simp [upsert, h0]
      rw [hu, List.map_cons, List.nodup_cons]
      refine ⟨?_, ih h.2⟩
      rw [mem_keys_upsert]
      push_neg
      exact ⟨h0, h.1⟩

/-- A key read successfully is among the map's keys. -/
theorem mem_keys_of_lookup_eq_some {m : Snapshot} {k v : Str}
    (h : lookup m k = some v) : k ∈ m.map Prod.fst := by
  induction m with
  | nil => simp [lookup] at h
  | cons kv rest ih =>
    obtain ⟨k0, v0⟩ := kv
    by_cases hk : k = k0
    · simp [hk]
    · simp only [lookup, hk, if_false] at h
      simp [ih h]

/-- A key absent from the map reads as `none`. -/
theorem lookup_eq_none_of_not_mem {m : Snapshot} {k : Str}
    (h : k ∉ m.map Prod.fst) : lookup m k = none := by
  induction m with
  | nil => rfl
  | cons kv rest ih =>
    obtain ⟨k0, v0⟩ := kv
    simp only [List.map_cons, List.mem_cons, not_or] at h
    simp [lookup, h.1, ih h.2]

/-! Facts about the parse loop. -/

/-- Lines whose key part is not `k` leave the value read at `k`
unchanged, wherever in the loop they occur. -/
theorem lookup_foldl_parseStep_no_key (k : Str) (ls : List Str)
    (m : Snapshot) (h : ∀ l ∈ ls, lineKey l ≠ some k) :
    lookup (ls.foldl parseStep m) k = lookup m k := by
  induction ls generalizing m with
  | nil => rfl
  | cons l ls ih =>
    have h1 : lineKey l ≠ some k := h l (List.mem_cons_self l ls)
    have h2 : ∀ x ∈ ls, lineKey x ≠ some k :=
      fun x hx => h x (List.mem_cons_of_mem l hx)
    rw [List.foldl_cons, ih _ h2]
    unfold parseStep
    cases hsp : splitFirstEq l with
    | none => rfl
    | some kv =>
      have hk : ¬ k = kv.1 := by
        intro e
        exact h1 (by simp [lineKey, hsp, e])
      rw [lookup_upsert, if_neg hk]

/-- The parse loop keeps map keys unique. -/
theorem keys_nodup_foldl_parseStep (ls : List Str) (m : Snapshot)
    (h : (m.map Prod.fst).Nodup) :
    ((ls.foldl parseStep m).map Prod.fst).Nodup := by
  induction ls generalizing m with
  | nil => exact h
  | cons l ls ih =>
    rw [List.foldl_cons]
    apply ih
    unfold parseStep
    cases splitFirstEq l with
    | none => exact h
    | some kv => exact keys_nodup_upsert kv.1 kv.2 m h

/-- Keys of a parsed snapshot have unique occurrences. -/
theorem parseLines_keys_nodup (ls : List Str) :
    ((parseLines ls).map Prod.fst).Nodup :=
  keys_nodup_foldl_parseStep ls [] (by simp)

/-- The parse loop only ever adds keys free of `=`. -/
theorem keys_no_eq_foldl_parseStep (ls : List Str) (m : Snapshot)
    (hm : ∀ x ∈ m.map Prod.fst, '=' ∉ x) :
    ∀ x ∈ (ls.foldl parseStep m).map Prod.fst, '=' ∉ x := by
  induction ls generalizing m with
  | nil => exact hm
  | cons l ls ih =>
    rw [List.foldl_cons]
    apply ih
    intro x hx
    unfold parseStep at hx
    cases hsp : splitFirstEq l with
    | none => rw [hsp] at hx; exact hm x hx
    | some kv =>
      rw [hsp] at hx
      rw [mem_keys_upsert] at hx
      cases hx with
      | inl he => rw [he]; exact splitFirstEq_key_no_eq l kv hsp
      | inr hmem => exact hm x hmem

/-! Facts about applying a snapshot to the environment. -/

/-- Applying a snapshot with unique keys is pointwise a lookup with the
old environment as fallback. -/
theorem applySnapshot_eq_lookup (m : Snapshot) :
    ∀ (e : Env) (k : Str), (m.map Prod.fst).Nodup →
    applySnapshot m e k =
      match lookup m k with
      | some v => some v
      | none => e k := by
  induction m with
  | nil =>
    intro e k _
    rfl
  | cons kv rest ih =>
    intro e k hnd
    obtain ⟨k0, v0⟩ := kv
    rw [List.map_cons, List.nodup_cons] at hnd
    have step : applySnapshot ((k0, v0) :: rest) e =
        applySnapshot rest (setenv e k0 v0) := rfl
    rw [step, ih (setenv e k0 v0) k hnd.2]
    by_cases hk : k = k0
    · subst hk
      have hnone : lookup rest k = none := lookup_eq_none_of_not_mem hnd.1
      simp [lookup, hnone, setenv]
    · cases hr : lookup rest k with
      | none => simp [lookup, hk, hr, setenv]
      | some v => simp [lookup, hk, hr]

/-- Applying a snapshot with unique keys: a key bound in the snapshot
reads its snapshot value afterwards, any other key reads its old value,
and no variable that was set becomes unset. -/
theorem applySnapshot_props (m : Snapshot) (e : Env) (k : Str)
    (hnd : (m.map Prod.fst).Nodup) :
    (∀ v, lookup m k = some v → applySnapshot m e k = some v)
    ∧ (lookup m k = none → applySnapshot m e k = e k)
    ∧ (applySnapshot m e k = none → e k = none) := by
  have key := applySnapshot_eq_lookup m e k hnd
  refine ⟨?_, ?_, ?_⟩
  · intro v hv
    rw [key, hv]
  · intro hv
    rw [key, hv]
  · intro hv
    rw [key] at hv
    cases hr : lookup m k with
    | none => rw [hr] at hv; exact hv
    | some v => rw [hr] at hv; simp at hv


/-! Facts about the command-execution loop. -/

/-- When every command in the list succeeds, the loop runs each one, in
order, and reports success. -/
theorem execLoop_all_ok {E : Type} (run : Command → Option E) (dir : Str)
    (cmds : List Str) (h : ∀ s ∈ cmds, run (parseCommand s dir) = none) :
    execLoop run dir cmds = (cmds.map (fun s => parseCommand s dir), none) := by
  induction cmds with
  | nil => rfl
  | cons c rest ih =>
    have hc : run (parseCommand c dir) = none := h c (List.mem_cons_self c rest)
    have hr : ∀ s ∈ rest, run (parseCommand s dir) = none :=
      fun s hs => h s (List.mem_cons_of_mem c hs)
    simp [execLoop, hc, ih hr]

/-- When a prefix succeeds and the next command fails, the loop runs
exactly the prefix and the failing command, and reports its error. -/
theorem execLoop_first_fail {E : Type} (run : Command → Option E)
    (dir : Str) (l1 l2 : List Str) (c : Str) (e : E)
    (h1 : ∀ s ∈ l1, run (parseCommand s dir) = none)
    (h2 : run (parseCommand c dir) = some e) :
    execLoop run dir (l1 ++ c :: l2) =
      (l1.map (fun s => parseCommand s dir) ++ [parseCommand c dir], some e) := by
  induction l1 with
  | nil => simp [execLoop, h2]
  | cons a l1 ih =>
    have ha : run (parseCommand a dir) = none := h1 a (List.mem_cons_self a l1)
    have hr : ∀ s ∈ l1, run (parseCommand s dir) = none :=
      fun s hs => h1 s (List.mem_cons_of_mem a hs)
    simp [execLoop, ha, ih hr]

/-- A list with a distinguished element is not the empty command list. -/
theorem isEmpty_append_cons_eq_false (l1 l2 : List Str) (c : Str) :
    (l1 ++ c :: l2).isEmpty = false := by
  cases l1 <;> rfl

/-- Mapping cannot decrease the number of occurrences of an element's
image. -/
theorem count_le_count_map {α β : Type} [BEq α] [LawfulBEq α] [BEq β]
    [LawfulBEq β] (f : α → β) (l : List α) (a : α) :
    l.count a ≤ (l.map f).count (f a) := by
  induction l with
  | nil => simp
  | cons b l ih =>
    rw [List.map_cons, List.count_cons, List.count_cons]
    have hb : (if b == a then 1 else 0) ≤ (if f b == f a then 1 else 0) := by
      by_cases hab : b = a
      · simp [hab]
      · simp [beq_iff_eq, hab]
    omega

/-- A scanner fed a single segment of at least `maxTok` characters finds
no newline in a full buffer and stops with `ErrTooLong`, yielding no
token. -/
theorem scanSegs_singleton_too_long (maxTok : Nat) (l : Str) (hne : l ≠ [])
    (hlen : maxTok ≤ l.length) : scanSegs maxTok [l] = ([], true) := by
  unfold scanSegs
  rw [if_neg hne, if_pos hlen]

/-! The claims. -/

/-- C1: for every successful sourcing call (`ShellSourceUnix`,
`ShellSourceBatch`, `ShellSourcePowerShell`), every key present in the
parsed snapshot is written into the process-wide environment with the
snapshot's value, unconditionally overwriting any prior value; every
variable whose name is not a key of the snapshot keeps its prior value;
and the operation never unsets a variable. -/
theorem shellSource_overwrite_and_preserve (output : Str) (env0 : Env)
    (k : Str) :
    ((∀ v, lookup (unixSnapshot output) k = some v →
        (ShellSourceUnix (some output) env0).2 k = some v)
      ∧ (lookup (unixSnapshot output) k = none →
        (ShellSourceUnix (some output) env0).2 k = env0 k)
      ∧ ((ShellSourceUnix (some output) env0).2 k = none → env0 k = none))
    ∧ ((∀ v, lookup (scannerSnapshot output) k = some v →
        (ShellSourceBatch (some output) env0).2 k = some v)
      ∧ (lookup (scannerSnapshot output) k = none →
        (ShellSourceBatch (some output) env0).2 k = env0 k)
      ∧ ((ShellSourceBatch (some output) env0).2 k = none → env0 k = none))
    ∧ ((∀ v, lookup (scannerSnapshot output) k = some v →
        (ShellSourcePowerShell (some output) env0).2 k = some v)
      ∧ (lookup (scannerSnapshot output) k = none →
        (ShellSourcePowerShell (some output) env0).2 k = env0 k)
      ∧ ((ShellSourcePowerShell (some output) env0).2 k = none →
        env0 k = none)) := by
  have hu : ((unixSnapshot output).map Prod.fst).Nodup :=
    parseLines_keys_nodup (splitOnChar '\n' output)
  have hs : ((scannerSnapshot output).map Prod.fst).Nodup :=
    parseLines_keys_nodup (scanLines output).1
  exact ⟨applySnapshot_props (unixSnapshot output) env0 k hu,
    applySnapshot_props (scannerSnapshot output) env0 k hs,
    applySnapshot_props (scannerSnapshot output) env0 k hs⟩

/-- Witness for C1 on a concrete dump: after sourcing a dump that sets
`FOO=bar`, the environment reads `bar` at `FOO`. -/
theorem shellSource_overwrite_and_preserve_witness :
    (ShellSourceUnix (some ['F', 'O', 'O', '=', 'b', 'a', 'r'])
      (fun _ => none)).2 ['F', 'O', 'O'] = some ['b', 'a', 'r'] :=
  (shellSource_overwrite_and_preserve ['F', 'O', 'O', '=', 'b', 'a', 'r']
    (fun _ => none) ['F', 'O', 'O']).1.1 ['b', 'a', 'r'] (by decide)

/-- C2: when a dump contains several lines with the same key part, the
parsed snapshot maps that key to the value of the last such line: any
line whose key part is `k`, followed only by lines whose key part is not
`k`, determines the snapshot's value at `k`. -/
theorem parse_last_write_wins (ls1 ls2 : List Str) (l k v : Str)
    (hl : splitFirstEq l = some (k, v))
    (h2 : ∀ lx ∈ ls2, lineKey lx ≠ some k) :
    lookup (parseLines (ls1 ++ l :: ls2)) k = some v := by
  unfold parseLines
  rw [List.foldl_append, List.foldl_cons,
    lookup_foldl_parseStep_no_key k ls2 _ h2]
  unfold parseStep
  rw [hl, lookup_upsert]
  simp

/-- Witness for C2: with lines `A=1`, `A=2`, `B=3`, the key `A` reads the
later value `2`. -/
theorem parse_last_write_wins_witness :
    lookup (parseLines [['A', '=', '1'], ['A', '=', '2'], ['B', '=', '3']])
      ['A'] = some ['2'] :=
  parse_last_write_wins [['A', '=', '1']] [['B', '=', '3']]
    ['A', '=', '2'] ['A'] ['2'] (by decide) (by decide)

/-- C3: when the subprocess invocation fails, each sourcing function
returns a non-nil error and the environment is exactly the one from
before the call. -/
theorem shellSource_invocation_failure_no_mutation (env0 : Env) :
    ShellSourceUnix none env0 = (some SourceError.scriptExecutionError, env0)
    ∧ ShellSourceBatch none env0 =
      (some SourceError.scriptExecutionError, env0)
    ∧ ShellSourcePowerShell none env0 =
      (some SourceError.scriptExecutionError, env0) :=
  ⟨rfl, rfl, rfl⟩

/-- C4 counterexample: a captured dump consisting of one line of 65536
characters makes the scanner stop with `ErrTooLong`, yet
`ShellSourceBatch` still returns a nil error — the scan failure is
silently swallowed. -/
theorem shellSourceBatch_swallows_scan_error :
    (scanLines (List.replicate 65536 'a')).2 = true
    ∧ (ShellSourceBatch (some (List.replicate 65536 'a'))
        (fun _ => none)).1 = none := by
  constructor
  · have h1 : splitOnChar '\n' (List.replicate 65536 'a') =
        [List.replicate 65536 'a'] := by
      apply splitOnChar_eq_single
      intro hm
      have h2 := List.eq_of_mem_replicate hm
      exact absurd h2 (by decide)
    have hne : (List.replicate 65536 'a' : Str) ≠ [] := by
      intro h0
      have h3 := congrArg List.length h0
      rw [List.length_replicate, List.length_nil] at h3
      exact absurd h3 (by decide)
    have hlen : maxScanTokenSize ≤ (List.replicate 65536 'a').length := by
      rw [List.length_replicate]
      exact Nat.le_refl 65536
    unfold scanLines
    rw [h1, scanSegs_singleton_too_long maxScanTokenSize
      (List.replicate 65536 'a') hne hlen]
  · rfl

/-- C4 amended: `ShellSourceBatch` and `ShellSourcePowerShell` return a
non-nil error exactly when the subprocess invocation fails; a failure of
the line scanner over the captured dump is never surfaced — on every
successful invocation the error result is nil, whatever the output. -/
theorem shellSource_error_only_on_invocation (output : Str) (env0 : Env) :
    (ShellSourceBatch (some output) env0).1 = none
    ∧ (ShellSourcePowerShell (some output) env0).1 = none
    ∧ (ShellSourceBatch none env0).1 =
      some SourceError.scriptExecutionError
    ∧ (ShellSourcePowerShell none env0).1 =
      some SourceError.scriptExecutionError :=
  ⟨rfl, rfl, rfl, rfl⟩

/-- C5: a line without `=` produces a single part (so it is skipped and
contributes no key), and deleting it from the dump leaves the parsed
snapshot unchanged — every well-formed line after it is still parsed. -/
theorem parse_skips_lines_without_eq (ls1 ls2 : List Str) (bad : Str)
    (h : '=' ∉ bad) :
    splitFirstEq bad = none
    ∧ parseLines (ls1 ++ bad :: ls2) = parseLines (ls1 ++ ls2) := by
  have hn := splitFirstEq_eq_none_of_not_mem bad h
  refine ⟨hn, ?_⟩
  unfold parseLines
  rw [List.foldl_append, List.foldl_append, List.foldl_cons]
  have hstep : parseStep (ls1.foldl parseStep []) bad =
      ls1.foldl parseStep [] := by
    unfold parseStep
    rw [hn]
  rw [hstep]

/-- Witness for C5: a banner line `x` between `A=1` and `B=2` changes
nothing. -/
theorem parse_skips_lines_without_eq_witness :
    splitFirstEq ['x'] = none
    ∧ parseLines [['A', '=', '1'], ['x'], ['B', '=', '2']] =
      parseLines [['A', '=', '1'], ['B', '=', '2']] :=
  parse_skips_lines_without_eq [['A', '=', '1']] [['B', '=', '2']] ['x']
    (by decide)

/-- C6 counterexample: the input line `=x` adds an entry with the
empty-string key to the snapshot, contrary to the claim that keys are
always non-empty. -/
theorem parse_empty_key_counterexample :
    lookup (parseLines [['=', 'x']]) [] = some ['x']
    ∧ [] ∈ (parseLines [['=', 'x']]).map Prod.fst := by
  decide

/-- C6 amended: every key of a parsed snapshot contains no `=` character,
but keys may be empty — a line of the form `=VALUE` adds an entry whose
key is the empty string. -/
theorem parse_keys_contain_no_eq (ls : List Str) (k v : Str)
    (h : lookup (parseLines ls) k = some v) : '=' ∉ k := by
  have hk : k ∈ (parseLines ls).map Prod.fst := mem_keys_of_lookup_eq_some h
  exact keys_no_eq_foldl_parseStep ls [] (by simp) k hk

/-- Witness for the amended C6: the key parsed from `A=1` contains no
`=`. -/
theorem parse_keys_contain_no_eq_witness : '=' ∉ (['A'] : Str) :=
  parse_keys_contain_no_eq [['A', '=', '1']] ['A'] ['1'] (by decide)

/-- C7: `ExecuteCommands` executes the given command list verbatim and in
order, with no deduplication: when every execution succeeds, the spawned
sequence is exactly the element-wise parse of the list, so a command
string occurring k times is executed at least k times. -/
theorem executeCommands_no_dedup {E : Type} (run : Command → Option E)
    (dir : Str) (cmds : List Str)
    (h : ∀ s ∈ cmds, run (parseCommand s dir) = none) :
    (ExecuteCommands run cmds dir).1 =
      cmds.map (fun s => parseCommand s dir)
    ∧ ∀ s : Str, cmds.count s ≤
      (ExecuteCommands run cmds dir).1.count (parseCommand s dir) := by
  have hmap : (ExecuteCommands run cmds dir).1 =
      cmds.map (fun s => parseCommand s dir) := by
    cases cmds with
    | nil => rfl
    | cons c rest =>
      have he : ExecuteCommands run (c :: rest) dir =
          execLoop run dir (c :: rest) := rfl
      rw [he, execLoop_all_ok run dir (c :: rest) h]
  refine ⟨hmap, fun s => ?_⟩
  rw [hmap]
  exact count_le_count_map (fun s => parseCommand s dir) cmds s

/-- Witness for C7: the duplicated command `a` is spawned twice. -/
theorem executeCommands_no_dedup_witness :
    (ExecuteCommands (fun _ => (none : Option Unit)) [['a'], ['a']] []).1 =
      ([['a'], ['a']] : List Str).map (fun s => parseCommand s [])
    ∧ ([['a'], ['a']] : List Str).count ['a'] ≤
      (ExecuteCommands (fun _ => (none : Option Unit))
        [['a'], ['a']] []).1.count (parseCommand ['a'] []) :=
  ⟨(executeCommands_no_dedup (fun _ => none) [] [['a'], ['a']]
      (fun _ _ => rfl)).1,
    (executeCommands_no_dedup (fun _ => none) [] [['a'], ['a']]
      (fun _ _ => rfl)).2 ['a']⟩

/-- C8: `ExecuteCommands` executes commands in list order and stops at
the first failure, returning that command's error without spawning any
later command; when every command succeeds it returns nil. -/
theorem executeCommands_ordered_short_circuit {E : Type}
    (run : Command → Option E) (dir : Str) :
    (∀ cmds : List Str, (∀ s ∈ cmds, run (parseCommand s dir) = none) →
      (ExecuteCommands run cmds dir).2 = none)
    ∧ (∀ (l1 l2 : List Str) (c : Str) (e : E),
      (∀ s ∈ l1, run (parseCommand s dir) = none) →
      run (parseCommand c dir) = some e →
      ExecuteCommands run (l1 ++ c :: l2) dir =
        (l1.map (fun s => parseCommand s dir) ++ [parseCommand c dir],
         some e)) := by
  constructor
  · intro cmds h
    cases cmds with
    | nil => rfl
    | cons c rest =>
      have he : ExecuteCommands run (c :: rest) dir =
          execLoop run dir (c :: rest) := rfl
      rw [he, execLoop_all_ok run dir (c :: rest) h]
  · intro l1 l2 c e h1 h2
    have he : ExecuteCommands run (l1 ++ c :: l2) dir =
        execLoop run dir (l1 ++ c :: l2) := by
      unfold ExecuteCommands
      rw [isEmpty_append_cons_eq_false]
      simp
    rw [he, execLoop_first_fail run dir l1 l2 c e h1 h2]

/-- Witness for C8: with `t` succeeding and `f` failing, the list
`[t, f, t]` spawns exactly `t` then `f` and returns the failure. -/
theorem executeCommands_ordered_short_circuit_witness :
    ExecuteCommands
        (fun c => if c.name = ['f'] then some (0 : Nat) else none)
        ([['t']] ++ ['f'] :: [['t']]) [] =
      (([['t']] : List Str).map (fun s => parseCommand s []) ++
        [parseCommand ['f'] []], some 0) :=
  (executeCommands_ordered_short_circuit
    (fun c => if c.name = ['f'] then some (0 : Nat) else none) []).2
    [['t']] [['t']] ['f'] 0 (by decide) (by decide)

/-- C9 counterexample: the Go code splits on single space characters
only, so the command `a  b` (two spaces) yields an empty argument token,
and a tab-separated command is not split at all — both contradict the
claimed whitespace-fields splitting. -/
theorem parseCommand_whitespace_counterexample :
    (parseCommand ['a', ' ', ' ', 'b'] []).args = [[], ['b']]
    ∧ parseCommand ['a', '\t', 'b'] [] ≠ parseCommand ['a', ' ', 'b'] [] := by
  decide

/-- C9 amended: each command string is split on single space characters
into first token as executable and remaining tokens as arguments; runs of
consecutive spaces produce empty tokens (passed as empty arguments), and
no other character — a tab in particular — acts as a separator: any
token list free of spaces, empties and tab-containing tokens included, is
recovered verbatim from its space-joined command string. -/
theorem parseCommand_splits_on_single_spaces (dir : Str) (ts : List Str)
    (hne : ts ≠ []) (h : ∀ t ∈ ts, ' ' ∉ t) :
    parseCommand (joinWith ' ' ts) dir = ⟨ts.headD [], ts.tail, dir⟩ := by
  unfold parseCommand
  rw [splitOnChar_joinWith ' ' ts hne h]

/-- Witness for the amended C9: the token list `[a, , b]` — middle token
empty, as two consecutive spaces produce — is recovered, with `a` the
executable and an empty string among the arguments. -/
theorem parseCommand_splits_on_single_spaces_witness :
    parseCommand (joinWith ' ' [['a'], [], ['b']]) [] =
      ⟨(([['a'], [], ['b']] : List Str)).headD [],
        ([['a'], [], ['b']] : List Str).tail, []⟩ :=
  parseCommand_splits_on_single_spaces [] [['a'], [], ['b']]
    (by decide) (by decide)

/-- C10: a command string that is empty or all spaces cannot make
`ExecuteCommands` panic: the split always yields at least one part, the
first part of such a string is the empty executable name, and when
spawning that empty name fails, `ExecuteCommands` returns the error after
the preceding commands without executing any later one. -/
theorem executeCommands_empty_command_safe {E : Type}
    (run : Command → Option E) (dir : Str) :
    (∀ s : Str, splitOnChar ' ' s ≠ [])
    ∧ (∀ n : Nat, (parseCommand (List.replicate n ' ') dir).name = [])
    ∧ (∀ (l1 l2 : List Str) (s : Str) (e : E),
      (parseCommand s dir).name = [] →
      (∀ t ∈ l1, run (parseCommand t dir) = none) →
      run (parseCommand s dir) = some e →
      ExecuteCommands run (l1 ++ s :: l2) dir =
        (l1.map (fun t => parseCommand t dir) ++ [parseCommand s dir],
         some e)) := by
  refine ⟨fun s => splitOnChar_ne_nil ' ' s, ?_, ?_⟩
  · intro n
    unfold parseCommand
    rw [splitOnChar_replicate_sep]
    simp [List.replicate_succ]
  · intro l1 l2 s e hname h1 h2
    have he : ExecuteCommands run (l1 ++ s :: l2) dir =
        execLoop run dir (l1 ++ s :: l2) := by
      unfold ExecuteCommands
      rw [isEmpty_append_cons_eq_false]
      simp
    rw [he, execLoop_first_fail run dir l1 l2 s e h1 h2]

/-- Witness for C10: the empty command string parses to the empty
executable name; when its spawn fails, the error is returned and the
following command `x` is never spawned. -/
theorem executeCommands_empty_command_safe_witness :
    ExecuteCommands (fun c => if c.name = [] then some (0 : Nat) else none)
        ([] ++ [] :: [['x']]) [] =
      (([] : List Str).map (fun t => parseCommand t []) ++
        [parseCommand [] []], some 0) :=
  (executeCommands_empty_command_safe
    (fun c => if c.name = [] then some (0 : Nat) else none) []).2.2
    [] [['x']] [] 0 (by decide) (by decide) (by decide)

end LangForge
